import Mathlib

/-!
Shallow embedding of faust/tables/manager.py (class TableManager).

The manager's mutable state becomes an explicit record; each method of the
class becomes a Lean function from state to state.  The asynchronous methods
additionally return the ordered list of calls they issue to their external
collaborators (tables, consumer, recovery coordinator, fetcher), so that the
ordering guarantees of the rebalance and recovery-completion protocols can be
stated as properties of that trace.  Python dicts are modelled by insertion-
ordered association lists, Python sets of partitions by lists with
membership-based claims, and the lazily constructed singleton collaborators
(the changelog queue and the recovery coordinator) by Option-valued fields
holding an instance identifier drawn from a fresh-id counter, together with a
construction counter used to state that construction happens exactly once.
-/

namespace FaustTables

/-- Partition identifier, a (topic, partition) pair: faust.types.TP. -/
structure TP where
  topic : String
  partition : Nat
deriving DecidableEq, Repr

/-- The part of a table (CollectionT) that TableManager reads: its unique
name, and the name of its changelog topic
(table.changelog_topic.get_topic_name()). -/
structure Table where
  name : String
  changelogTopicName : String
deriving DecidableEq, Repr

/-- One call issued by the manager to an external collaborator, or one of the
manager's own observable state transitions, in program order. -/
inductive Event where
  | sleep
  | addTopicChannel (t : Table)
  | maybeStartTable (t : Table)
  | pausePartitions (tps : List TP)
  | setRecoveryStarted
  | tableRevoked (t : Table) (tps : List TP)
  | tableAssigned (t : Table) (tps : List TP)
  | recoveryOnRebalance (assigned revoked newlyAssigned : List TP)
  | recoveryStart
  | callRecoverCallbacks (t : Table)
  | waitAllCallbacks
  | performSeek
  | setRecoveryCompleted
  | resumePartitions (tps : List TP)
  | fetcherMaybeStart
  | clearRebalancing
  | fetcherStop
  | recoveryStop
  | tableStop (t : Table)
deriving DecidableEq, Repr

/-- The state of a TableManager.  data is self.data (name -> table, used via
FastUserDict), changelogs is self._changelogs (changelog topic name -> table),
channels records which tables already have a bound channel (the keys of
self._channels), recoveryStarted / recoveryCompleted model the two
asyncio.Event latches, changelogQueue and recoveryInst model the lazily
constructed self._changelog_queue and self._recovery (an instance is a Nat
identifier drawn from nextId; queueConstructions and recoveryConstructions
count how many times each constructor ran).  The _standbys dict is
initialized by __init__ but never used by this class, so it is omitted. -/
structure ManagerState where
  data : List (String × Table)
  changelogs : List (String × Table)
  channels : List Table
  recoveryStarted : Bool
  recoveryCompleted : Bool
  changelogQueue : Option Nat
  recoveryInst : Option Nat
  nextId : Nat
  queueConstructions : Nat
  recoveryConstructions : Nat
deriving DecidableEq, Repr

/-- State built by TableManager.__init__. -/
def initState : ManagerState :=
  { data := []
    changelogs := []
    channels := []
    recoveryStarted := false
    recoveryCompleted := false
    changelogQueue := none
    recoveryInst := none
    nextId := 0
    queueConstructions := 0
    recoveryConstructions := 0 }

/-- The registered tables in insertion order: self.values(). -/
def tablesVals (s : ManagerState) : List Table := s.data.map Prod.snd

/-- The changelog topic names, i.e. the keys of self._changelogs; as a set
this is the changelog_topics property. -/
def changelogKeys (s : ManagerState) : List String := s.changelogs.map Prod.fst

/-- Membership test of a topic in self._changelogs (used both by the pause
set comprehension in _update_channels and by _is_changelog_tp). -/
def topicRegistered (s : ManagerState) (topic : String) : Bool :=
  s.changelogs.any (fun p => p.1 == topic)

/-- Membership test of a table name in self (FastUserDict __contains__). -/
def containsName (s : ManagerState) (name : String) : Bool :=
  s.data.any (fun p => p.1 == name)

/-- Python dict assignment d[k] = v on an insertion-ordered association
list: overwrite in place if the key is present, else append. -/
def updateA : List (String × Table) → String → Table → List (String × Table)
  | [], k, v => [(k, v)]
  | (k1, v1) :: rest, k, v =>
    if k1 = k then (k, v) :: rest else (k1, v1) :: updateA rest k v

/-- The two exceptions TableManager.add can raise. -/
inductive AddError where
  | lateRegistration
  | duplicateName
deriving DecidableEq, Repr

/-- TableManager.add.  Raises (returns an error and the unchanged state) if
recovery already started or the name is taken; otherwise records the table
under its name, indexes it by its changelog topic name and returns it. -/
def add (s : ManagerState) (t : Table) : Except AddError Table × ManagerState :=
  if s.recoveryStarted then (Except.error AddError.lateRegistration, s)
  else if containsName s t.name then (Except.error AddError.duplicateName, s)
  else (Except.ok t,
    { s with
      data := s.data ++ [(t.name, t)]
      changelogs := updateA s.changelogs t.changelogTopicName t })

/-- The changelog_queue property: construct the flow-controlled queue on
first access, then return the cached instance. -/
def changelogQueueAccess (s : ManagerState) : Nat × ManagerState :=
  match s.changelogQueue with
  | some q => (q, s)
  | none =>
    (s.nextId,
      { s with
        changelogQueue := some s.nextId
        nextId := s.nextId + 1
        queueConstructions := s.queueConstructions + 1 })

/-- The recovery property: construct the Recovery coordinator on first
access, then return the cached instance. -/
def recoveryAccess (s : ManagerState) : Nat × ManagerState :=
  match s.recoveryInst with
  | some r => (r, s)
  | none =>
    (s.nextId,
      { s with
        recoveryInst := some s.nextId
        nextId := s.nextId + 1
        recoveryConstructions := s.recoveryConstructions + 1 })

/-- One iteration of the loop in _update_channels: if the table has no bound
channel yet, clone its changelog topic over the shared queue (accessing the
changelog_queue property) and register the channel; in both cases the table
is then started idempotently. -/
def wireTable (s : ManagerState) (t : Table) : List Event × ManagerState :=
  if t ∈ s.channels then ([Event.maybeStartTable t], s)
  else
    let p := changelogQueueAccess s
    ([Event.addTopicChannel t, Event.maybeStartTable t],
      { p.2 with channels := p.2.channels ++ [t] })

/-- The for-loop of _update_channels over self.values(). -/
def updateChannelsLoop : ManagerState → List Table → List Event × ManagerState
  | s, [] => ([], s)
  | s, t :: ts =>
    let p1 := wireTable s t
    let p2 := updateChannelsLoop p1.2 ts
    (p1.1 ++ p2.1, p2.2)

/-- The set comprehension passed to pause_partitions: currently assigned
partitions whose topic is in self._changelogs. -/
def pausedSet (s : ManagerState) (assignment : List TP) : List TP :=
  assignment.filter (fun tp => topicRegistered s tp.topic)

/-- TableManager._update_channels: wire every table, then pause exactly the
assigned partitions that belong to a registered changelog topic.  The current
consumer assignment is passed in as a parameter. -/
def updateChannels (s : ManagerState) (assignment : List TP) :
    List Event × ManagerState :=
  let p := updateChannelsLoop s (tablesVals s)
  (p.1 ++ [Event.pausePartitions (pausedSet p.2 assignment)], p.2)

/-- TableManager.on_start: sleep for the grace interval, wire channels, then
start the recovery coordinator (accessing the recovery property). -/
def onStart (s : ManagerState) (assignment : List TP) :
    List Event × ManagerState :=
  let p := updateChannels s assignment
  let r := recoveryAccess p.2
  (Event.sleep :: p.1 ++ [Event.recoveryStart], r.2)

/-- TableManager.on_stop: stop the fetcher, then the recovery coordinator if
it was ever constructed (note: this reads the self._recovery field directly,
so it never constructs it), then stop every registered table in order. -/
def onStop (s : ManagerState) : List Event × ManagerState :=
  (Event.fetcherStop ::
      ((if s.recoveryInst.isSome then [Event.recoveryStop] else []) ++
        (tablesVals s).map Event.tableStop),
    s)

/-- The per-table notification events of on_rebalance: for each table in
order, on_partitions_revoked(revoked) then on_partitions_assigned
(newly_assigned). -/
def notifEvents : List Table → List TP → List TP → List Event
  | [], _, _ => []
  | t :: ts, revoked, newlyAssigned =>
    Event.tableRevoked t revoked :: Event.tableAssigned t newlyAssigned ::
      notifEvents ts revoked newlyAssigned

/-- TableManager.on_rebalance: set the recovery-started latch, notify every
table of revoked then newly assigned partitions, re-run channel wiring, and
forward the full triple to the recovery coordinator (accessing the recovery
property). -/
def onRebalance (s : ManagerState) (assignment : List TP)
    (assigned revoked newlyAssigned : List TP) : List Event × ManagerState :=
  let s1 := { s with recoveryStarted := true }
  let p := updateChannels s1 assignment
  let r := recoveryAccess p.2
  (Event.setRecoveryStarted ::
      (notifEvents (tablesVals s1) revoked newlyAssigned ++ p.1 ++
        [Event.recoveryOnRebalance assigned revoked newlyAssigned]),
    r.2)

/-- Modelled from the spec: asyncio.wait is an external library primitive
(not part of this repository) that waits for a set of awaitables and fails
when given an empty set; the code guards that call with a truthiness test
on the callback collection. -/
def asyncioWait (coros : List Unit) : Option Unit :=
  if coros.isEmpty then none else some ()

/-- The set comprehension passed to resume_partitions: assigned partitions
for which _is_changelog_tp is false. -/
def resumedSet (s : ManagerState) (assignment : List TP) : List TP :=
  assignment.filter (fun tp => !(topicRegistered s tp.topic))

/-- TableManager.on_recovery_completed: fan out call_recover_callbacks to
every table, wait on the non-empty collection of callbacks, perform the
deferred seek, set the recovery-completed latch, resume the non-changelog
assigned partitions, start the fetcher, and clear the rebalancing flag.
Returns none only if the modelled asyncio.wait were reached with an empty
collection (which the guard prevents). -/
def onRecoveryCompleted (s : ManagerState) (assignment : List TP) :
    Option (List Event × ManagerState) :=
  let coros : List Unit := (tablesVals s).map (fun _ => ())
  let cbEvs := (tablesVals s).map Event.callRecoverCallbacks
  let barrier : Option (List Event) :=
    if coros.isEmpty then some []
    else (asyncioWait coros).map (fun _ => [Event.waitAllCallbacks])
  match barrier with
  | none => none
  | some waitEvs =>
    some
      (cbEvs ++ waitEvs ++
        [Event.performSeek, Event.setRecoveryCompleted,
          Event.resumePartitions (resumedSet s assignment),
          Event.fetcherMaybeStart, Event.clearRebalancing],
        { s with recoveryCompleted := true })

/-- One invocation of any manager operation, with the arguments it needs
(for operations that read the current consumer assignment, that assignment
is part of the operation). -/
inductive Op where
  | add (t : Table)
  | onStart (assignment : List TP)
  | updateChannels (assignment : List TP)
  | onRebalance (assignment : List TP) (assigned revoked newlyAssigned : List TP)
  | onRecoveryCompleted (assignment : List TP)
  | onStop
deriving Repr

/-- The manager state after running one operation (for add, the state after
the call whether it raised or returned). -/
def stateAfter (s : ManagerState) : Op → ManagerState
  | Op.add t => (add s t).2
  | Op.onStart a => (onStart s a).2
  | Op.updateChannels a => (updateChannels s a).2
  | Op.onRebalance a x y z => (onRebalance s a x y z).2
  | Op.onRecoveryCompleted a =>
    match onRecoveryCompleted s a with
    | some p => p.2
    | none => s
  | Op.onStop => (onStop s).2

/-- Run a sequence of add calls, failing if any of them raises. -/
def addAllOk : ManagerState → List Table → Option ManagerState
  | s, [] => some s
  | s, t :: ts =>
    match add s t with
    | (Except.ok _, s1) => addAllOk s1 ts
    | (Except.error _, _) => none

/-- Event a occurs strictly before event b in the trace. -/
def eventsBefore (tr : List Event) (a b : Event) : Prop :=
  ∃ u v w, tr = u ++ a :: v ++ b :: w

/-- Discriminator for the per-table rebalance notification events. -/
def isNotif : Event → Bool
  | Event.tableRevoked _ _ => true
  | Event.tableAssigned _ _ => true
  | _ => false

/-- Discriminator for the forwarding call to the recovery coordinator. -/
def isForwardEvent : Event → Bool
  | Event.recoveryOnRebalance _ _ _ => true
  | _ => false

/-- Discriminator for table stop calls. -/
def isTableStopEvent : Event → Bool
  | Event.tableStop _ => true
  | _ => false

/-! Helper lemmas. -/

theorem topicRegistered_iff (s : ManagerState) (top : String) :
    topicRegistered s top = true ↔ top ∈ changelogKeys s := by
  simp [topicRegistered, changelogKeys, List.any_eq_true]

theorem wireTable_state (s : ManagerState) (t : Table) :
    (wireTable s t).2.data = s.data ∧
    (wireTable s t).2.changelogs = s.changelogs ∧
    (wireTable s t).2.recoveryStarted = s.recoveryStarted ∧
    (wireTable s t).2.recoveryCompleted = s.recoveryCompleted ∧
    (wireTable s t).2.recoveryInst = s.recoveryInst ∧
    (wireTable s t).2.recoveryConstructions = s.recoveryConstructions ∧
    (∀ q, s.changelogQueue = some q →
      (wireTable s t).2.changelogQueue = some q ∧
      (wireTable s t).2.queueConstructions = s.queueConstructions) := by
  unfold wireTable changelogQueueAccess
  by_cases h : t ∈ s.channels
  · simp [h]
  · cases hq : s.changelogQueue <;> simp [h, hq]

theorem updateChannelsLoop_state (ts : List Table) : ∀ s : ManagerState,
    (updateChannelsLoop s ts).2.data = s.data ∧
    (updateChannelsLoop s ts).2.changelogs = s.changelogs ∧
    (updateChannelsLoop s ts).2.recoveryStarted = s.recoveryStarted ∧
    (updateChannelsLoop s ts).2.recoveryCompleted = s.recoveryCompleted ∧
    (updateChannelsLoop s ts).2.recoveryInst = s.recoveryInst ∧
    (updateChannelsLoop s ts).2.recoveryConstructions = s.recoveryConstructions ∧
    (∀ q, s.changelogQueue = some q →
      (updateChannelsLoop s ts).2.changelogQueue = some q ∧
      (updateChannelsLoop s ts).2.queueConstructions = s.queueConstructions) := by
  induction ts with
  | nil => intro s; simp [updateChannelsLoop]
  | cons t ts ih =>
    intro s
    have hw := wireTable_state s t
    have hi := ih (wireTable s t).2
    obtain ⟨w1, w2, w3, w4, w5, w6, w7⟩ := hw
    obtain ⟨i1, i2, i3, i4, i5, i6, i7⟩ := hi
    refine ⟨?_, ?_, ?_, ?_, ?_, ?_, ?_⟩ <;>
      simp only [updateChannelsLoop] <;>
      first
        | (rw [i1, w1]) | (rw [i2, w2]) | (rw [i3, w3]) | (rw [i4, w4])
        | (rw [i5, w5]) | (rw [i6, w6])
        | (intro q hq
           obtain ⟨a1, a2⟩ := w7 q hq
           obtain ⟨b1, b2⟩ := i7 q a1
           exact ⟨b1, by rw [b2, a2]⟩)

theorem updateChannelsLoop_events (ts : List Table) : ∀ (s : ManagerState)
    (e : Event), e ∈ (updateChannelsLoop s ts).1 →
    (∃ t, e = Event.addTopicChannel t) ∨ (∃ t, e = Event.maybeStartTable t) := by
  induction ts with
  | nil => intro s e he; simp [updateChannelsLoop] at he
  | cons t ts ih =>
    intro s e he
    simp only [updateChannelsLoop, List.mem_append] at he
    rcases he with he | he
    · unfold wireTable at he
      by_cases h : t ∈ s.channels
      · simp [h] at he
        simp [he]
      · simp [h] at he
        rcases he with he | he <;> simp [he]
    · exact ih _ e he

theorem containsName_iff (s : ManagerState) (n : String) :
    containsName s n = true ↔ n ∈ s.data.map Prod.fst := by
  simp [containsName, List.any_eq_true]

theorem lookup_updateA_self (k : String) (v : Table) : ∀ l : List (String × Table),
    List.lookup k (updateA l k v) = some v := by
  intro l
  induction l with
  | nil => simp [updateA, List.lookup]
  | cons p rest ih =>
    obtain ⟨k1, v1⟩ := p
    by_cases h : k1 = k
    · simp [updateA, h, List.lookup]
    · have hb : (k == k1) = false := beq_eq_false_iff_ne.mpr (Ne.symm h)
      simp [updateA, h, List.lookup, hb, ih]

theorem lookup_append_self (k : String) (v : Table) : ∀ l : List (String × Table),
    k ∉ l.map Prod.fst → List.lookup k (l ++ [(k, v)]) = some v := by
  intro l
  induction l with
  | nil => simp [List.lookup]
  | cons p rest ih =>
    obtain ⟨k1, v1⟩ := p
    intro hk
    simp only [List.map_cons, List.mem_cons] at hk
    push_neg at hk
    have hb : (k == k1) = false := beq_eq_false_iff_ne.mpr hk.1
    simp [List.lookup, hb, ih hk.2]

/-- C1: add raises the late-registration error iff recoveryStarted is set;
otherwise it raises the duplicate-name error iff the name is already
registered; otherwise it records the table under its name, indexes it by its
changelog topic name, and returns it unchanged; on either error the manager
state is unchanged. -/
theorem claim_c1_add (s : ManagerState) (t : Table) :
    ((add s t).1 = Except.error AddError.lateRegistration ↔
      s.recoveryStarted = true) ∧
    (s.recoveryStarted = false →
      ((add s t).1 = Except.error AddError.duplicateName ↔
        containsName s t.name = true)) ∧
    (s.recoveryStarted = false → containsName s t.name = false →
      (add s t).1 = Except.ok t ∧
      (add s t).2.data = s.data ++ [(t.name, t)] ∧
      List.lookup t.name (add s t).2.data = some t ∧
      List.lookup t.changelogTopicName (add s t).2.changelogs = some t) ∧
    (∀ e, (add s t).1 = Except.error e → (add s t).2 = s) := by
  by_cases h1 : s.recoveryStarted = true
  · unfold add; simp [h1]
  · by_cases h2 : containsName s t.name = true
    · unfold add; simp [h1, h2]
    · have hadd : add s t =
          (Except.ok t,
            { s with
              data := s.data ++ [(t.name, t)]
              changelogs := updateA s.changelogs t.changelogTopicName t }) := by
        unfold add
        simp [h1, h2]
      rw [hadd]
      refine ⟨by simp [h1], by simp [h2], fun _ _ => ⟨rfl, rfl, ?_, ?_⟩, by simp⟩
      · exact lookup_append_self t.name t s.data
          (fun hm => h2 ((containsName_iff s t.name).mpr hm))
      · exact lookup_updateA_self t.changelogTopicName t s.changelogs

/-- Witness for C1 at a concrete table added to a fresh manager. -/
theorem claim_c1_add_witness :
    (add initState ⟨"a", "ta"⟩).1 = Except.ok ⟨"a", "ta"⟩ ∧
    (add initState ⟨"a", "ta"⟩).2.data = [("a", ⟨"a", "ta"⟩)] ∧
    List.lookup "ta" (add initState ⟨"a", "ta"⟩).2.changelogs =
      some ⟨"a", "ta"⟩ := by
  have h := (claim_c1_add initState ⟨"a", "ta"⟩).2.2.1 rfl (by decide)
  exact ⟨h.1, by simpa [initState] using h.2.1, h.2.2.2⟩

/-- C5: every run of channel wiring ends with a pause_partitions call whose
argument is exactly the set of currently assigned partitions whose topic is
a registered changelog topic, and no other pause_partitions call occurs. -/
theorem claim_c5_pause (s : ManagerState) (asg : List TP) :
    ∃ ps,
      (updateChannels s asg).1.getLast? = some (Event.pausePartitions ps) ∧
      (∀ qs, Event.pausePartitions qs ∈ (updateChannels s asg).1 → qs = ps) ∧
      (∀ tp, tp ∈ ps ↔ tp ∈ asg ∧ tp.topic ∈ changelogKeys s) := by
  refine ⟨pausedSet (updateChannelsLoop s (tablesVals s)).2 asg, ?_, ?_, ?_⟩
  · unfold updateChannels
    exact List.getLast?_concat _
  · intro qs hq
    unfold updateChannels at hq
    rw [List.mem_append] at hq
    rcases hq with hq | hq
    · rcases updateChannelsLoop_events _ _ _ hq with ⟨t, ht⟩ | ⟨t, ht⟩ <;>
        simp at ht
    · simpa using hq
  · intro tp
    have hch : (updateChannelsLoop s (tablesVals s)).2.changelogs =
        s.changelogs := (updateChannelsLoop_state (tablesVals s) s).2.1
    have hkeys : changelogKeys (updateChannelsLoop s (tablesVals s)).2 =
        changelogKeys s := by
      unfold changelogKeys
      rw [hch]
    rw [pausedSet, List.mem_filter, topicRegistered_iff, hkeys]

/-- Witness for C5: one registered table with changelog topic ta; assigned
partitions (ta,0) and (live,0); exactly (ta,0) is paused. -/
theorem claim_c5_pause_witness :
    ∃ ps,
      (updateChannels (add initState ⟨"a", "ta"⟩).2
          [⟨"ta", 0⟩, ⟨"live", 0⟩]).1.getLast? =
        some (Event.pausePartitions ps) ∧
      (⟨"ta", 0⟩ : TP) ∈ ps ∧ (⟨"live", 0⟩ : TP) ∉ ps := by
  obtain ⟨ps, h1, h2, h3⟩ :=
    claim_c5_pause (add initState ⟨"a", "ta"⟩).2 [⟨"ta", 0⟩, ⟨"live", 0⟩]
  refine ⟨ps, h1, ?_, ?_⟩
  · exact (h3 ⟨"ta", 0⟩).mpr ⟨by decide, by decide⟩
  · intro hm
    exact absurd ((h3 ⟨"live", 0⟩).mp hm).2 (by decide)

theorem onRecoveryCompleted_eq (s : ManagerState) (asg : List TP) :
    onRecoveryCompleted s asg =
      some
        ((tablesVals s).map Event.callRecoverCallbacks ++
            (if (tablesVals s).isEmpty then [] else [Event.waitAllCallbacks]) ++
            [Event.performSeek, Event.setRecoveryCompleted,
              Event.resumePartitions (resumedSet s asg),
              Event.fetcherMaybeStart, Event.clearRebalancing],
          { s with recoveryCompleted := true }) := by
  rcases hv : tablesVals s with _ | ⟨t, ts⟩ <;>
    simp [onRecoveryCompleted, asyncioWait, hv]

theorem mem_resumedSet (s : ManagerState) (asg : List TP) (tp : TP) :
    tp ∈ resumedSet s asg ↔ tp ∈ asg ∧ tp.topic ∉ changelogKeys s := by
  rw [resumedSet, List.mem_filter, Bool.not_eq_true', ← Bool.not_eq_true,
    topicRegistered_iff]

/-- C4: after on_recovery_completed, resume_partitions has been called with
exactly the assigned partitions whose topic is not a registered changelog
topic, and with no other argument. -/
theorem claim_c4_resume_exact (s : ManagerState) (asg : List TP) :
    ∃ tr s2 ps, onRecoveryCompleted s asg = some (tr, s2) ∧
      Event.resumePartitions ps ∈ tr ∧
      (∀ qs, Event.resumePartitions qs ∈ tr → qs = ps) ∧
      (∀ tp, tp ∈ ps ↔ tp ∈ asg ∧ tp.topic ∉ changelogKeys s) := by
  refine ⟨_, _, resumedSet s asg, onRecoveryCompleted_eq s asg, by simp, ?_,
    mem_resumedSet s asg⟩
  intro qs hq
  by_cases he : (tablesVals s).isEmpty
  · simp [he] at hq
    exact hq
  · simp [he] at hq
    exact hq

/-- Witness for C4: one table with changelog topic ta; assigned (ta,0) and
(live,0); the resumed set contains (live,0) but not (ta,0). -/
theorem claim_c4_resume_exact_witness :
    ∃ tr s2 ps,
      onRecoveryCompleted (add initState ⟨"a", "ta"⟩).2
          [⟨"ta", 0⟩, ⟨"live", 0⟩] = some (tr, s2) ∧
      Event.resumePartitions ps ∈ tr ∧
      (⟨"live", 0⟩ : TP) ∈ ps ∧ (⟨"ta", 0⟩ : TP) ∉ ps := by
  obtain ⟨tr, s2, ps, h1, h2, h3, h4⟩ :=
    claim_c4_resume_exact (add initState ⟨"a", "ta"⟩).2 [⟨"ta", 0⟩, ⟨"live", 0⟩]
  refine ⟨tr, s2, ps, h1, h2, (h4 _).mpr ⟨by decide, by decide⟩, fun hm => ?_⟩
  exact ((h4 ⟨"ta", 0⟩).mp hm).2 (by decide)

/-- C3: with at least one registered table, every per-table recovered
callback is issued before the barrier wait, the barrier completes before the
seek, the seek before the recovery-completed latch, the latch before the
resume, and the fetcher start and rebalancing-flag clear come last. -/
theorem claim_c3_barrier (s : ManagerState) (asg : List TP)
    (h : tablesVals s ≠ []) :
    ∃ tr s2, onRecoveryCompleted s asg = some (tr, s2) ∧
      (∀ t ∈ tablesVals s,
        eventsBefore tr (Event.callRecoverCallbacks t) Event.waitAllCallbacks) ∧
      eventsBefore tr Event.waitAllCallbacks Event.performSeek ∧
      eventsBefore tr Event.performSeek Event.setRecoveryCompleted ∧
      eventsBefore tr Event.setRecoveryCompleted
        (Event.resumePartitions (resumedSet s asg)) ∧
      eventsBefore tr (Event.resumePartitions (resumedSet s asg))
        Event.fetcherMaybeStart ∧
      eventsBefore tr Event.fetcherMaybeStart Event.clearRebalancing ∧
      s2.recoveryCompleted = true := by
  have he : (tablesVals s).isEmpty = false := by
    rcases hv : tablesVals s with _ | ⟨t, ts⟩
    · exact absurd hv h
    · rfl
  have heq : onRecoveryCompleted s asg =
      some
        ((tablesVals s).map Event.callRecoverCallbacks ++
            [Event.waitAllCallbacks] ++
            [Event.performSeek, Event.setRecoveryCompleted,
              Event.resumePartitions (resumedSet s asg),
              Event.fetcherMaybeStart, Event.clearRebalancing],
          { s with recoveryCompleted := true }) := by
    rw [onRecoveryCompleted_eq, he]
    simp
  refine ⟨_, _, heq, ?_, ?_, ?_, ?_, ?_, ?_, rfl⟩
  · intro t ht
    have hmem : Event.callRecoverCallbacks t ∈
        (tablesVals s).map Event.callRecoverCallbacks :=
      List.mem_map_of_mem _ ht
    obtain ⟨l1, l2, hcb⟩ := List.append_of_mem hmem
    refine ⟨l1, l2,
      [Event.performSeek, Event.setRecoveryCompleted,
        Event.resumePartitions (resumedSet s asg),
        Event.fetcherMaybeStart, Event.clearRebalancing], ?_⟩
    rw [hcb]
    simp
  · exact ⟨(tablesVals s).map Event.callRecoverCallbacks, [],
      [Event.setRecoveryCompleted, Event.resumePartitions (resumedSet s asg),
        Event.fetcherMaybeStart, Event.clearRebalancing], by simp⟩
  · exact ⟨(tablesVals s).map Event.callRecoverCallbacks ++
        [Event.waitAllCallbacks], [],
      [Event.resumePartitions (resumedSet s asg), Event.fetcherMaybeStart,
        Event.clearRebalancing], by simp⟩
  · exact ⟨(tablesVals s).map Event.callRecoverCallbacks ++
        [Event.waitAllCallbacks, Event.performSeek], [],
      [Event.fetcherMaybeStart, Event.clearRebalancing], by simp⟩
  · exact ⟨(tablesVals s).map Event.callRecoverCallbacks ++
        [Event.waitAllCallbacks, Event.performSeek,
          Event.setRecoveryCompleted], [],
      [Event.clearRebalancing], by simp⟩
  · exact ⟨(tablesVals s).map Event.callRecoverCallbacks ++
        [Event.waitAllCallbacks, Event.performSeek, Event.setRecoveryCompleted,
          Event.resumePartitions (resumedSet s asg)], [], [], by simp⟩

/-- Witness for C3 at a manager with one registered table. -/
theorem claim_c3_barrier_witness :
    ∃ tr s2,
      onRecoveryCompleted (add initState ⟨"a", "ta"⟩).2 [⟨"ta", 0⟩] =
        some (tr, s2) ∧
      eventsBefore tr (Event.callRecoverCallbacks ⟨"a", "ta"⟩)
        Event.waitAllCallbacks ∧
      eventsBefore tr Event.waitAllCallbacks Event.performSeek ∧
      s2.recoveryCompleted = true := by
  obtain ⟨tr, s2, h1, h2, h3, _, _, _, _, h8⟩ :=
    claim_c3_barrier (add initState ⟨"a", "ta"⟩).2 [⟨"ta", 0⟩] (by decide)
  exact ⟨tr, s2, h1, h2 ⟨"a", "ta"⟩ (by decide), h3, h8⟩

/-- C10: with zero registered tables, on_recovery_completed skips the wait
on the empty callback collection (so the modelled asyncio.wait is never
reached with an empty set) and still seeks, sets the latch, resumes the
non-changelog assigned partitions, starts the fetcher and clears the
rebalancing flag. -/
theorem claim_c10_empty (s : ManagerState) (asg : List TP)
    (h : tablesVals s = []) :
    ∃ tr s2, onRecoveryCompleted s asg = some (tr, s2) ∧
      Event.waitAllCallbacks ∉ tr ∧
      tr = [Event.performSeek, Event.setRecoveryCompleted,
        Event.resumePartitions (resumedSet s asg), Event.fetcherMaybeStart,
        Event.clearRebalancing] ∧
      (∀ tp, tp ∈ resumedSet s asg ↔ tp ∈ asg ∧ tp.topic ∉ changelogKeys s) ∧
      s2.recoveryCompleted = true := by
  refine ⟨_, _, onRecoveryCompleted_eq s asg, ?_, ?_, mem_resumedSet s asg, rfl⟩
  · simp [h]
  · simp [h]

/-- Witness for C10 at a fresh manager with no tables. -/
theorem claim_c10_empty_witness :
    ∃ tr s2, onRecoveryCompleted initState [⟨"x", 0⟩] = some (tr, s2) ∧
      Event.waitAllCallbacks ∉ tr ∧
      Event.performSeek ∈ tr ∧ s2.recoveryCompleted = true := by
  obtain ⟨tr, s2, h1, h2, h3, _, h5⟩ :=
    claim_c10_empty initState [⟨"x", 0⟩] rfl
  exact ⟨tr, s2, h1, h2, by rw [h3]; simp, h5⟩

theorem recoveryAccess_state (s : ManagerState) :
    (recoveryAccess s).2.data = s.data ∧
    (recoveryAccess s).2.changelogs = s.changelogs ∧
    (recoveryAccess s).2.recoveryStarted = s.recoveryStarted ∧
    (recoveryAccess s).2.recoveryCompleted = s.recoveryCompleted ∧
    (recoveryAccess s).2.changelogQueue = s.changelogQueue ∧
    (recoveryAccess s).2.queueConstructions = s.queueConstructions ∧
    (∀ rr, s.recoveryInst = some rr → (recoveryAccess s).2 = s) := by
  cases hr : s.recoveryInst <;> simp [recoveryAccess, hr]

theorem filter_isNotif_notifEvents (r n : List TP) : ∀ ts : List Table,
    (notifEvents ts r n).filter isNotif = notifEvents ts r n := by
  intro ts
  induction ts with
  | nil => rfl
  | cons t ts ih => simp [notifEvents, isNotif, ih]

theorem filter_isForward_notifEvents (r n : List TP) : ∀ ts : List Table,
    (notifEvents ts r n).filter isForwardEvent = [] := by
  intro ts
  induction ts with
  | nil => rfl
  | cons t ts ih => simp [notifEvents, isForwardEvent, ih]

theorem filter_isNotif_updateChannels (s : ManagerState) (asg : List TP) :
    ((updateChannels s asg).1).filter isNotif = [] := by
  unfold updateChannels
  rw [List.filter_append]
  have h1 : (updateChannelsLoop s (tablesVals s)).1.filter isNotif = [] := by
    rw [List.filter_eq_nil_iff]
    intro e he
    rcases updateChannelsLoop_events _ _ _ he with ⟨t, ht⟩ | ⟨t, ht⟩ <;>
      simp [ht, isNotif]
  rw [h1]
  simp [isNotif]

theorem filter_isForward_updateChannels (s : ManagerState) (asg : List TP) :
    ((updateChannels s asg).1).filter isForwardEvent = [] := by
  unfold updateChannels
  rw [List.filter_append]
  have h1 : (updateChannelsLoop s (tablesVals s)).1.filter isForwardEvent
      = [] := by
    rw [List.filter_eq_nil_iff]
    intro e he
    rcases updateChannelsLoop_events _ _ _ he with ⟨t, ht⟩ | ⟨t, ht⟩ <;>
      simp [ht, isForwardEvent]
  rw [h1]
  simp [isForwardEvent]

theorem notifEvents_split (r n : List TP) (t : Table) : ∀ ts : List Table,
    t ∈ ts → ∃ u w, notifEvents ts r n =
      u ++ Event.tableRevoked t r :: Event.tableAssigned t n :: w := by
  intro ts
  induction ts with
  | nil => intro h; cases h
  | cons t1 ts ih =>
    intro h
    rcases List.mem_cons.mp h with h | h
    · subst h
      exact ⟨[], notifEvents ts r n, rfl⟩
    · obtain ⟨u, w, hw⟩ := ih h
      exact ⟨Event.tableRevoked t1 r :: Event.tableAssigned t1 n :: u, w,
        by simp [notifEvents, hw]⟩

/-- C2: on_rebalance emits the recovery-started transition first, then for
each registered table in order its revoked notification immediately followed
by its newly-assigned notification (the filtered notification subtrace is
exactly the per-table revoke/assign pairs in registration order), and ends,
after all channel wiring, with the one forwarding call to the recovery
coordinator carrying the unchanged triple. -/
theorem claim_c2_rebalance_order (s : ManagerState) (asg a r n : List TP) :
    ((onRebalance s asg a r n).1).head? = some Event.setRecoveryStarted ∧
    ((onRebalance s asg a r n).1).filter isNotif =
      notifEvents (tablesVals s) r n ∧
    (∀ t ∈ tablesVals s, ∃ u w, (onRebalance s asg a r n).1 =
      u ++ Event.tableRevoked t r :: Event.tableAssigned t n :: w) ∧
    ((onRebalance s asg a r n).1).filter isForwardEvent =
      [Event.recoveryOnRebalance a r n] ∧
    ((onRebalance s asg a r n).1).getLast? =
      some (Event.recoveryOnRebalance a r n) ∧
    (onRebalance s asg a r n).2.recoveryStarted = true := by
  have hdef : (onRebalance s asg a r n).1 =
      Event.setRecoveryStarted ::
        ((notifEvents (tablesVals s) r n ++
            (updateChannels { s with recoveryStarted := true } asg).1) ++
          [Event.recoveryOnRebalance a r n]) := rfl
  refine ⟨by rw [hdef]; rfl, ?_, ?_, ?_, ?_, ?_⟩
  · rw [hdef]
    simp only [List.filter_cons, List.filter_append]
    rw [filter_isNotif_notifEvents, filter_isNotif_updateChannels]
    simp [isNotif]
  · intro t ht
    obtain ⟨u, w, hw⟩ := notifEvents_split r n t (tablesVals s) ht
    refine ⟨Event.setRecoveryStarted :: u,
      w ++ (updateChannels { s with recoveryStarted := true } asg).1 ++
        [Event.recoveryOnRebalance a r n], ?_⟩
    rw [hdef, hw]
    simp
  · rw [hdef]
    simp only [List.filter_cons, List.filter_append]
    rw [filter_isForward_notifEvents, filter_isForward_updateChannels]
    simp [isForwardEvent]
  · rw [hdef, ← List.cons_append]
    exact List.getLast?_concat _
  · show (recoveryAccess _).2.recoveryStarted = true
    rw [(recoveryAccess_state _).2.2.1]
    show (updateChannelsLoop _ _).2.recoveryStarted = true
    rw [(updateChannelsLoop_state _ _).2.2.1]

/-- Witness for C2 at a manager with one registered table. -/
theorem claim_c2_rebalance_order_witness :
    ((onRebalance (add initState ⟨"a", "ta"⟩).2 [⟨"ta", 0⟩] [⟨"ta", 0⟩] []
        [⟨"ta", 0⟩]).1).head? = some Event.setRecoveryStarted ∧
    (∃ u w, (onRebalance (add initState ⟨"a", "ta"⟩).2 [⟨"ta", 0⟩] [⟨"ta", 0⟩]
        [] [⟨"ta", 0⟩]).1 =
      u ++ Event.tableRevoked ⟨"a", "ta"⟩ [] ::
        Event.tableAssigned ⟨"a", "ta"⟩ [⟨"ta", 0⟩] :: w) ∧
    ((onRebalance (add initState ⟨"a", "ta"⟩).2 [⟨"ta", 0⟩] [⟨"ta", 0⟩] []
        [⟨"ta", 0⟩]).1).getLast? =
      some (Event.recoveryOnRebalance [⟨"ta", 0⟩] [] [⟨"ta", 0⟩]) := by
  obtain ⟨h1, _, h3, _, h5, _⟩ :=
    claim_c2_rebalance_order (add initState ⟨"a", "ta"⟩).2 [⟨"ta", 0⟩]
      [⟨"ta", 0⟩] [] [⟨"ta", 0⟩]
  exact ⟨h1, h3 ⟨"a", "ta"⟩ (by decide), h5⟩

theorem filter_isTableStop_map (ts : List Table) :
    (ts.map Event.tableStop).filter isTableStopEvent =
      ts.map Event.tableStop := by
  induction ts with
  | nil => rfl
  | cons t ts ih => simp [isTableStopEvent, ih]

/-- C7: on_stop first stops the fetcher, then stops the recovery coordinator
exactly when it was ever constructed (and never constructs it), then stops
every registered table in registration order; the manager state is left
untouched. -/
theorem claim_c7_stop_order (s : ManagerState) :
    ((onStop s).1).head? = some Event.fetcherStop ∧
    (Event.recoveryStop ∈ (onStop s).1 ↔ s.recoveryInst.isSome = true) ∧
    (s.recoveryInst.isSome = true →
      (onStop s).1 = Event.fetcherStop :: Event.recoveryStop ::
        (tablesVals s).map Event.tableStop) ∧
    (s.recoveryInst.isSome = false →
      (onStop s).1 =
        Event.fetcherStop :: (tablesVals s).map Event.tableStop) ∧
    ((onStop s).1).filter isTableStopEvent =
      (tablesVals s).map Event.tableStop ∧
    (onStop s).2 = s := by
  by_cases h : s.recoveryInst.isSome = true
  · refine ⟨rfl, ?_, fun _ => ?_, fun hf => absurd h (by simp [hf]), ?_, rfl⟩
    · simp [onStop, h]
    · simp [onStop, h]
    · simp only [onStop, h, if_true, List.filter_cons, List.filter_append]
      have hm : ∀ e ∈ (tablesVals s).map Event.tableStop,
          isTableStopEvent e = true := by
        intro e he
        obtain ⟨t, _, ht⟩ := List.mem_map.mp he
        simp [← ht, isTableStopEvent]
      simp [isTableStopEvent, filter_isTableStop_map]
  · have hn : s.recoveryInst.isSome = false := by simpa using h
    refine ⟨rfl, ?_, fun ht => absurd ht h, fun _ => ?_, ?_, rfl⟩
    · constructor
      · intro hm
        simp [onStop, hn] at hm
      · intro ht
        exact absurd ht h
    · simp [onStop, hn]
    · simp only [onStop, hn, Bool.false_eq_true, if_false, List.nil_append,
        List.filter_cons]
      simp [isTableStopEvent, filter_isTableStop_map]

/-- Witness for C7 at a started manager (recovery constructed) with one
registered table. -/
theorem claim_c7_stop_order_witness :
    (onStop (onStart (add initState ⟨"a", "ta"⟩).2 []).2).1 =
      [Event.fetcherStop, Event.recoveryStop, Event.tableStop ⟨"a", "ta"⟩] ∧
    (onStop (onStart (add initState ⟨"a", "ta"⟩).2 []).2).2 =
      (onStart (add initState ⟨"a", "ta"⟩).2 []).2 := by
  obtain ⟨_, _, h3, _, _, h6⟩ :=
    claim_c7_stop_order (onStart (add initState ⟨"a", "ta"⟩).2 []).2
  exact ⟨(h3 (by decide)).trans (by decide), h6⟩

theorem onRebalance_sets_started (s : ManagerState) (asg a r n : List TP) :
    (onRebalance s asg a r n).2.recoveryStarted = true := by
  show (recoveryAccess _).2.recoveryStarted = true
  rw [(recoveryAccess_state _).2.2.1]
  show (updateChannelsLoop _ _).2.recoveryStarted = true
  rw [(updateChannelsLoop_state _ _).2.2.1]

theorem stateAfter_started_mono (s : ManagerState) (op : Op)
    (h : s.recoveryStarted = true) :
    (stateAfter s op).recoveryStarted = true := by
  cases op with
  | add t =>
    show (add s t).2.recoveryStarted = true
    unfold add
    by_cases h2 : containsName s t.name = true <;> simp [h, h2]
  | onStart a =>
    show (recoveryAccess (updateChannels s a).2).2.recoveryStarted = true
    rw [(recoveryAccess_state _).2.2.1]
    show (updateChannelsLoop _ _).2.recoveryStarted = true
    rw [(updateChannelsLoop_state _ _).2.2.1]
    exact h
  | updateChannels a =>
    show (updateChannelsLoop _ _).2.recoveryStarted = true
    rw [(updateChannelsLoop_state _ _).2.2.1]
    exact h
  | onRebalance a x y z => exact onRebalance_sets_started s a x y z
  | onRecoveryCompleted a =>
    show (stateAfter s (Op.onRecoveryCompleted a)).recoveryStarted = true
    simp only [stateAfter, onRecoveryCompleted_eq]
    exact h
  | onStop => exact h

theorem stateAfter_completed_mono (s : ManagerState) (op : Op)
    (h : s.recoveryCompleted = true) :
    (stateAfter s op).recoveryCompleted = true := by
  cases op with
  | add t =>
    show (add s t).2.recoveryCompleted = true
    unfold add
    by_cases h1 : s.recoveryStarted = true <;>
      by_cases h2 : containsName s t.name = true <;> simp [h, h1, h2]
  | onStart a =>
    show (recoveryAccess (updateChannels s a).2).2.recoveryCompleted = true
    rw [(recoveryAccess_state _).2.2.2.1]
    show (updateChannelsLoop _ _).2.recoveryCompleted = true
    rw [(updateChannelsLoop_state _ _).2.2.2.1]
    exact h
  | updateChannels a =>
    show (updateChannelsLoop _ _).2.recoveryCompleted = true
    rw [(updateChannelsLoop_state _ _).2.2.2.1]
    exact h
  | onRebalance a x y z =>
    show (recoveryAccess (updateChannels _ a).2).2.recoveryCompleted = true
    rw [(recoveryAccess_state _).2.2.2.1]
    show (updateChannelsLoop _ _).2.recoveryCompleted = true
    rw [(updateChannelsLoop_state _ _).2.2.2.1]
    exact h
  | onRecoveryCompleted a =>
    show (stateAfter s (Op.onRecoveryCompleted a)).recoveryCompleted = true
    simp only [stateAfter, onRecoveryCompleted_eq]
  | onStop => exact h

/-- C6: recoveryStarted and recoveryCompleted are monotonic one-shot
latches: both are false at construction, recoveryStarted becomes true on any
on_rebalance, recoveryCompleted becomes true during on_recovery_completed,
and no manager operation ever resets either one from true to false. -/
theorem claim_c6_latches (s : ManagerState) (op : Op) :
    initState.recoveryStarted = false ∧
    initState.recoveryCompleted = false ∧
    (s.recoveryStarted = true → (stateAfter s op).recoveryStarted = true) ∧
    (s.recoveryCompleted = true →
      (stateAfter s op).recoveryCompleted = true) ∧
    (∀ asg a r n,
      (stateAfter s (Op.onRebalance asg a r n)).recoveryStarted = true) ∧
    (∀ asg,
      (stateAfter s (Op.onRecoveryCompleted asg)).recoveryCompleted
        = true) := by
  refine ⟨rfl, rfl, stateAfter_started_mono s op,
    stateAfter_completed_mono s op, fun asg a r n => ?_, fun asg => ?_⟩
  · exact onRebalance_sets_started s asg a r n
  · show (stateAfter s (Op.onRecoveryCompleted asg)).recoveryCompleted = true
    simp only [stateAfter, onRecoveryCompleted_eq]

/-- Witness for C6: starting from a fresh manager, a rebalance sets the
started latch and a further stop call does not reset it. -/
theorem claim_c6_latches_witness :
    initState.recoveryStarted = false ∧
    (stateAfter initState (Op.onRebalance [] [] [] [])).recoveryStarted
      = true ∧
    (stateAfter (stateAfter initState (Op.onRebalance [] [] [] []))
        Op.onStop).recoveryStarted = true ∧
    (stateAfter initState (Op.onRecoveryCompleted [])).recoveryCompleted
      = true := by
  obtain ⟨i1, _, _, _, f1, f2⟩ := claim_c6_latches initState Op.onStop
  obtain ⟨_, _, m1, _, _, _⟩ :=
    claim_c6_latches (stateAfter initState (Op.onRebalance [] [] [] []))
      Op.onStop
  exact ⟨i1, f1 [] [] [] [], m1 (f1 [] [] [] []), f2 []⟩

theorem stateAfter_queue_mono (s : ManagerState) (op : Op) (q : Nat)
    (h : s.changelogQueue = some q) :
    (stateAfter s op).changelogQueue = some q ∧
    (stateAfter s op).queueConstructions = s.queueConstructions := by
  cases op with
  | add t =>
    show (add s t).2.changelogQueue = some q ∧
      (add s t).2.queueConstructions = s.queueConstructions
    unfold add
    by_cases h1 : s.recoveryStarted = true <;>
      by_cases h2 : containsName s t.name = true <;> simp [h, h1, h2]
  | onStart a =>
    show (recoveryAccess (updateChannels s a).2).2.changelogQueue = some q ∧
      (recoveryAccess (updateChannels s a).2).2.queueConstructions =
        s.queueConstructions
    rw [(recoveryAccess_state _).2.2.2.2.1,
      (recoveryAccess_state _).2.2.2.2.2.1]
    exact (updateChannelsLoop_state _ _).2.2.2.2.2.2 q h
  | updateChannels a =>
    exact (updateChannelsLoop_state _ _).2.2.2.2.2.2 q h
  | onRebalance a x y z =>
    show (recoveryAccess (updateChannels _ a).2).2.changelogQueue = some q ∧
      (recoveryAccess (updateChannels _ a).2).2.queueConstructions =
        s.queueConstructions
    rw [(recoveryAccess_state _).2.2.2.2.1,
      (recoveryAccess_state _).2.2.2.2.2.1]
    exact (updateChannelsLoop_state _ _).2.2.2.2.2.2 q h
  | onRecoveryCompleted a =>
    show (stateAfter s (Op.onRecoveryCompleted a)).changelogQueue = some q ∧
      (stateAfter s (Op.onRecoveryCompleted a)).queueConstructions =
        s.queueConstructions
    simp only [stateAfter, onRecoveryCompleted_eq]
    exact ⟨h, trivial⟩
  | onStop => exact ⟨h, rfl⟩

theorem stateAfter_recovery_mono (s : ManagerState) (op : Op) (r : Nat)
    (h : s.recoveryInst = some r) :
    (stateAfter s op).recoveryInst = some r ∧
    (stateAfter s op).recoveryConstructions = s.recoveryConstructions := by
  cases op with
  | add t =>
    show (add s t).2.recoveryInst = some r ∧
      (add s t).2.recoveryConstructions = s.recoveryConstructions
    unfold add
    by_cases h1 : s.recoveryStarted = true <;>
      by_cases h2 : containsName s t.name = true <;> simp [h, h1, h2]
  | onStart a =>
    show (recoveryAccess (updateChannels s a).2).2.recoveryInst = some r ∧
      (recoveryAccess (updateChannels s a).2).2.recoveryConstructions =
        s.recoveryConstructions
    have hl1 : (updateChannels s a).2.recoveryInst = s.recoveryInst :=
      (updateChannelsLoop_state _ _).2.2.2.2.1
    have hl2 : (updateChannels s a).2.recoveryConstructions =
        s.recoveryConstructions := (updateChannelsLoop_state _ _).2.2.2.2.2.1
    have hacc : (recoveryAccess (updateChannels s a).2).2 =
        (updateChannels s a).2 :=
      (recoveryAccess_state _).2.2.2.2.2.2 r (hl1.trans h)
    rw [hacc, hl1, hl2]
    exact ⟨h, rfl⟩
  | updateChannels a =>
    exact ⟨((updateChannelsLoop_state _ _).2.2.2.2.1).trans h,
      (updateChannelsLoop_state _ _).2.2.2.2.2.1⟩
  | onRebalance a x y z =>
    show (recoveryAccess (updateChannels _ a).2).2.recoveryInst = some r ∧
      (recoveryAccess (updateChannels _ a).2).2.recoveryConstructions =
        s.recoveryConstructions
    have hl1 : (updateChannels { s with recoveryStarted := true } a).2.recoveryInst
        = s.recoveryInst := (updateChannelsLoop_state _ _).2.2.2.2.1
    have hl2 : (updateChannels { s with recoveryStarted := true } a).2.recoveryConstructions
        = s.recoveryConstructions := (updateChannelsLoop_state _ _).2.2.2.2.2.1
    have hacc : (recoveryAccess (updateChannels { s with recoveryStarted := true } a).2).2 =
        (updateChannels { s with recoveryStarted := true } a).2 :=
      (recoveryAccess_state _).2.2.2.2.2.2 r (hl1.trans h)
    rw [hacc, hl1, hl2]
    exact ⟨h, rfl⟩
  | onRecoveryCompleted a =>
    show (stateAfter s (Op.onRecoveryCompleted a)).recoveryInst = some r ∧
      (stateAfter s (Op.onRecoveryCompleted a)).recoveryConstructions =
        s.recoveryConstructions
    simp only [stateAfter, onRecoveryCompleted_eq]
    exact ⟨h, trivial⟩
  | onStop => exact ⟨h, rfl⟩

/-- C8: the changelog_queue and recovery accessors are idempotent lazy
singletons: a second access right after any access returns the identical
instance and does not change the state; an access on an already-constructed
instance returns it with the state unchanged; a first access constructs
exactly one instance (the construction counter increases by one and the
field caches the returned instance); and no manager operation ever replaces
or reconstructs an already-constructed instance. -/
theorem claim_c8_singletons (s : ManagerState) (op : Op) (q r : Nat) :
    changelogQueueAccess (changelogQueueAccess s).2 =
      ((changelogQueueAccess s).1, (changelogQueueAccess s).2) ∧
    recoveryAccess (recoveryAccess s).2 =
      ((recoveryAccess s).1, (recoveryAccess s).2) ∧
    (s.changelogQueue = some q → changelogQueueAccess s = (q, s)) ∧
    (s.recoveryInst = some r → recoveryAccess s = (r, s)) ∧
    (s.changelogQueue = none →
      (changelogQueueAccess s).2.changelogQueue =
        some (changelogQueueAccess s).1 ∧
      (changelogQueueAccess s).2.queueConstructions =
        s.queueConstructions + 1) ∧
    (s.recoveryInst = none →
      (recoveryAccess s).2.recoveryInst = some (recoveryAccess s).1 ∧
      (recoveryAccess s).2.recoveryConstructions =
        s.recoveryConstructions + 1) ∧
    (s.changelogQueue = some q →
      (stateAfter s op).changelogQueue = some q ∧
      (stateAfter s op).queueConstructions = s.queueConstructions) ∧
    (s.recoveryInst = some r →
      (stateAfter s op).recoveryInst = some r ∧
      (stateAfter s op).recoveryConstructions = s.recoveryConstructions) := by
  refine ⟨?_, ?_, ?_, ?_, ?_, ?_, stateAfter_queue_mono s op q,
    stateAfter_recovery_mono s op r⟩
  · cases hq : s.changelogQueue <;> simp [changelogQueueAccess, hq]
  · cases hr : s.recoveryInst <;> simp [recoveryAccess, hr]
  · intro hq
    simp [changelogQueueAccess, hq]
  · intro hr
    simp [recoveryAccess, hr]
  · intro hq
    simp [changelogQueueAccess, hq]
  · intro hr
    simp [recoveryAccess, hr]

/-- Witness for C8 at a started manager with one table: both instances are
cached, and a stop operation preserves the queue instance. -/
theorem claim_c8_singletons_witness :
    changelogQueueAccess (onStart (add initState ⟨"a", "ta"⟩).2 []).2 =
      (0, (onStart (add initState ⟨"a", "ta"⟩).2 []).2) ∧
    recoveryAccess (onStart (add initState ⟨"a", "ta"⟩).2 []).2 =
      (1, (onStart (add initState ⟨"a", "ta"⟩).2 []).2) ∧
    (stateAfter (onStart (add initState ⟨"a", "ta"⟩).2 []).2
        Op.onStop).changelogQueue = some 0 := by
  obtain ⟨_, _, h3, h4, _, _, h7, _⟩ :=
    claim_c8_singletons (onStart (add initState ⟨"a", "ta"⟩).2 []).2
      Op.onStop 0 1
  exact ⟨h3 (by decide), h4 (by decide), (h7 (by decide)).1⟩

theorem updateA_not_mem (k : String) (v : Table) : ∀ l : List (String × Table),
    k ∉ l.map Prod.fst → updateA l k v = l ++ [(k, v)] := by
  intro l
  induction l with
  | nil => intro _; rfl
  | cons p rest ih =>
    obtain ⟨k1, v1⟩ := p
    intro hk
    simp only [List.map_cons, List.mem_cons] at hk
    push_neg at hk
    simp [updateA, Ne.symm hk.1, ih hk.2]

theorem addAllOk_spec : ∀ (ts : List Table) (s s1 : ManagerState),
    addAllOk s ts = some s1 →
    (∀ t ∈ ts, t.changelogTopicName ∉ s.changelogs.map Prod.fst) →
    (ts.map (fun t => t.changelogTopicName)).Nodup →
    s1.data = s.data ++ ts.map (fun t => (t.name, t)) ∧
    s1.changelogs =
      s.changelogs ++ ts.map (fun t => (t.changelogTopicName, t)) := by
  intro ts
  induction ts with
  | nil =>
    intro s s1 h _ _
    simp only [addAllOk] at h
    cases h
    simp
  | cons t ts ih =>
    intro s s1 h hfresh hnd
    by_cases h1 : s.recoveryStarted = true
    · simp [addAllOk, add, h1] at h
    · by_cases h2 : containsName s t.name = true
      · simp [addAllOk, add, h1, h2] at h
      · have hs2 : add s t =
            (Except.ok t,
              { s with
                data := s.data ++ [(t.name, t)]
                changelogs :=
                  s.changelogs ++ [(t.changelogTopicName, t)] }) := by
          unfold add
          simp [h1, h2]
          exact updateA_not_mem t.changelogTopicName t s.changelogs
            (hfresh t (List.mem_cons_self t ts))
        rw [show addAllOk s (t :: ts) =
            (match add s t with
              | (Except.ok _, s2) => addAllOk s2 ts
              | (Except.error _, _) => none) from rfl, hs2] at h
        have hkeys :
            ({ s with
                data := s.data ++ [(t.name, t)]
                changelogs := s.changelogs ++ [(t.changelogTopicName, t)]
              } : ManagerState).changelogs.map Prod.fst =
              s.changelogs.map Prod.fst ++ [t.changelogTopicName] := by
          simp
        rw [List.map_cons] at hnd
        have hnd1 := List.nodup_cons.mp hnd
        obtain ⟨d1, d2⟩ := ih _ s1 h
          (by
            intro t1 ht1
            rw [hkeys]
            rw [List.mem_append]
            push_neg
            refine ⟨hfresh t1 (List.mem_cons_of_mem t ht1), ?_⟩
            simp only [List.mem_singleton]
            intro he
            exact hnd1.1 (he ▸ List.mem_map_of_mem _ ht1))
          hnd1.2
        constructor
        · rw [d1]
          simp
        · rw [d2]
          simp

theorem map_snd_name_pairs : ∀ l : List Table,
    (l.map (fun t => (t.name, t))).map Prod.snd = l := by
  intro l
  induction l with
  | nil => rfl
  | cons t l ih => simp [ih]

theorem map_snd_topic_pairs : ∀ l : List Table,
    (l.map (fun t => (t.changelogTopicName, t))).map Prod.snd = l := by
  intro l
  induction l with
  | nil => rfl
  | cons t l ih => simp [ih]

theorem map_fst_topic_pairs : ∀ l : List Table,
    (l.map (fun t => (t.changelogTopicName, t))).map Prod.fst =
      l.map (fun t => t.changelogTopicName) := by
  intro l
  induction l with
  | nil => rfl
  | cons t l ih => simp [ih]

theorem lookup_pairs : ∀ ts : List Table,
    (ts.map (fun t => t.changelogTopicName)).Nodup →
    ∀ t ∈ ts, List.lookup t.changelogTopicName
      (ts.map (fun x => (x.changelogTopicName, x))) = some t := by
  intro ts
  induction ts with
  | nil => intro _ t ht; cases ht
  | cons t1 ts ih =>
    intro hnd t ht
    rw [List.map_cons] at hnd
    have hnd1 := List.nodup_cons.mp hnd
    rcases List.mem_cons.mp ht with rfl | ht2
    · simp [List.lookup]
    · have hne : t.changelogTopicName ≠ t1.changelogTopicName := by
        intro he
        exact hnd1.1 (he ▸ List.mem_map_of_mem _ ht2)
      have hb : (t.changelogTopicName == t1.changelogTopicName) = false :=
        beq_eq_false_iff_ne.mpr hne
      simp only [List.map_cons, List.lookup, hb]
      exact ih hnd1.2 t ht2

/-- C9 as stated is false: the counterexample registers two tables with
distinct names but the same changelog topic name; both add calls succeed,
yet the first table is registered while appearing as the value of no entry
of changelogsByTopic (the second add overwrote the shared topic key). -/
theorem claim_c9_counterexample :
    (add initState ⟨"a", "top"⟩).1 = Except.ok ⟨"a", "top"⟩ ∧
    (add (add initState ⟨"a", "top"⟩).2 ⟨"b", "top"⟩).1 =
      Except.ok ⟨"b", "top"⟩ ∧
    (⟨"a", "top"⟩ : Table) ∈
      tablesVals (add (add initState ⟨"a", "top"⟩).2 ⟨"b", "top"⟩).2 ∧
    (add (add initState ⟨"a", "top"⟩).2 ⟨"b", "top"⟩).2.changelogs =
      [("top", ⟨"b", "top"⟩)] ∧
    (⟨"a", "top"⟩ : Table) ∉
      ((add (add initState ⟨"a", "top"⟩).2 ⟨"b", "top"⟩).2.changelogs).map
        Prod.snd := by
  refine ⟨rfl, rfl, by decide, rfl, by decide⟩

/-- C9 amended: after any sequence of successful add calls whose tables have
pairwise distinct changelog topic names, changelogsByTopic is in one-to-one
correspondence with tables: the values of changelogsByTopic are exactly the
registered tables in order, each registered table is found under its own
changelog topic name, and the changelog topics are exactly the registered
tables' changelog topic names. -/
theorem claim_c9_amended (ts : List Table) (s1 : ManagerState)
    (h : addAllOk initState ts = some s1)
    (hnd : (ts.map (fun t => t.changelogTopicName)).Nodup) :
    tablesVals s1 = ts ∧
    changelogKeys s1 = ts.map (fun t => t.changelogTopicName) ∧
    s1.changelogs.map Prod.snd = ts ∧
    ∀ t ∈ ts,
      List.lookup t.changelogTopicName s1.changelogs = some t := by
  obtain ⟨d1, d2⟩ := addAllOk_spec ts initState s1 h (by simp [initState]) hnd
  simp only [initState, List.nil_append] at d1 d2
  refine ⟨?_, ?_, ?_, ?_⟩
  · rw [tablesVals, d1, map_snd_name_pairs]
  · rw [changelogKeys, d2, map_fst_topic_pairs]
  · rw [d2, map_snd_topic_pairs]
  · intro t ht
    rw [d2]
    exact lookup_pairs ts hnd t ht

/-- Witness for the amended C9 with two tables of distinct changelog
topics. -/
theorem claim_c9_amended_witness :
    ∃ s1, addAllOk initState [⟨"a", "ta"⟩, ⟨"b", "tb"⟩] = some s1 ∧
      tablesVals s1 = [⟨"a", "ta"⟩, ⟨"b", "tb"⟩] ∧
      changelogKeys s1 = ["ta", "tb"] := by
  rcases hv : addAllOk initState [⟨"a", "ta"⟩, ⟨"b", "tb"⟩] with _ | s1
  · exact absurd hv (by decide)
  · obtain ⟨a1, a2, _, _⟩ :=
      claim_c9_amended [⟨"a", "ta"⟩, ⟨"b", "tb"⟩] s1 hv (by decide)
    exact ⟨s1, rfl, a1, by simpa using a2⟩

end FaustTables
